import Mathlib

/-!
Shallow embedding of the `volatility-estimator` repository.

Prices are modelled as rationals (`ℚ`); the transcendental functions
`np.log` and `np.sqrt` are abstract parameters `lg sq : ℚ → ℚ` of the
estimators, so every theorem below holds for each interpretation of them.
A pandas `NaN` entry is modelled as `none : Option ℚ`; pandas rolling
aggregations with the default `min_periods = window` produce `none`
exactly when the window holds fewer than `window` valid values, matching
the library's documented behaviour.
-/

namespace VolEst

/-- A timestamp: business-day index and time of day (in seconds).
Models the `ts` column of a raw frame. -/
structure Ts where
  day : ℕ
  tod : ℕ
deriving DecidableEq

/-- `ts ≤ ts'` lexicographically (calendar date first, then time of day). -/
def Ts.le (a b : Ts) : Prop :=
  a.day < b.day ∨ (a.day = b.day ∧ a.tod ≤ b.tod)

/-- `ts < ts'` lexicographically. -/
def Ts.lt (a b : Ts) : Prop :=
  a.day < b.day ∨ (a.day = b.day ∧ a.tod < b.tod)

instance Ts.decLe : DecidableRel Ts.le := fun a b =>
  decidable_of_iff (a.day < b.day ∨ (a.day = b.day ∧ a.tod ≤ b.tod)) Iff.rfl

instance Ts.decLt : DecidableRel Ts.lt := fun a b =>
  decidable_of_iff (a.day < b.day ∨ (a.day = b.day ∧ a.tod < b.tod)) Iff.rfl

instance : IsTotal Ts Ts.le := ⟨fun a b => by unfold Ts.le; omega⟩

instance : IsTrans Ts Ts.le := ⟨fun a b c => by unfold Ts.le; omega⟩

/-- A raw tick: one row of a raw price frame (`ts`, `price`). -/
structure Tick where
  ts : Ts
  price : ℚ
deriving DecidableEq

/-- A cleaned tick: a row after `_add_date_column` (`ts`, `price`, `date`). -/
structure CTick where
  ts : Ts
  price : ℚ
  date : ℕ
deriving DecidableEq

abbrev Frame := List Tick

abbrev CFrame := List CTick

/-- One row of a historical-volatility frame:
(`date`, `rolling_historical_volatility`), `none` modelling `NaN`. -/
abbrev VolRecord := ℕ × Option ℚ

/-- `np.median`: middle element of the sorted data (mean of the two middle
elements for even length).  (Unused junk value `0` for the empty list,
which never occurs at the call sites below.) -/
def median (l : List ℚ) : ℚ :=
  if l.length % 2 = 1 then (List.insertionSort (· ≤ ·) l).getD (l.length / 2) 0
  else
    ((List.insertionSort (· ≤ ·) l).getD (l.length / 2 - 1) 0
      + (List.insertionSort (· ≤ ·) l).getD (l.length / 2) 0) / 2

/-- `np.mean`. -/
def meanQ (l : List ℚ) : ℚ := l.sum / l.length

/-- Mean absolute deviation from the median (the "MAD" of
`_mad_exclude_middle`). -/
def meanAbsDev (l : List ℚ) : ℚ := meanQ (l.map fun v => |v - median l|)

/-- cleaner.py `_filter_non_trading_hours`: keep ticks whose time of day is
within `[START_TIME, END_TIME]`, both ends inclusive. -/
def _filter_non_trading_hours (start_time end_time : ℕ) (f : Frame) : Frame :=
  f.filter fun t => decide (start_time ≤ t.ts.tod ∧ t.ts.tod ≤ end_time)

/-- cleaner.py `_filter_zero_prices`: keep ticks with `price > 0`. -/
def _filter_zero_prices (f : Frame) : Frame :=
  f.filter fun t => decide (0 < t.price)

/-- cleaner.py `_combine_identical_timestamps`:
`frame.groupby("ts", as_index=False).median()` — one row per distinct
timestamp (pandas sorts group keys), price = median of the group. -/
def _combine_identical_timestamps (f : Frame) : Frame :=
  (List.insertionSort Ts.le ((f.map Tick.ts).dedup)).map fun k =>
    ⟨k, median ((f.filter fun t => decide (t.ts = k)).map Tick.price)⟩

/-- The raw value window that
`rolling(window=w, center=True, min_periods=1).apply(·, raw=True)` passes
to the callback at index `i`: rows `[i+1+offset-w, i+1+offset)` of the
series, clipped to the valid range, where `offset = (w-1)/2` (pandas
`FixedWindowIndexer` with `center=True`). -/
def windowSlice (p : List ℚ) (w i : ℕ) : List ℚ :=
  (p.take (i + 1 + (w - 1) / 2)).drop (i + 1 + (w - 1) / 2 - w)

/-- cleaner.py `_median_exclude_middle`: median of
`np.concatenate([x[:half_window], x[half_window+1:]])`. -/
def _median_exclude_middle (half_window : ℕ) (x : List ℚ) : ℚ :=
  median (x.take half_window ++ x.drop (half_window + 1))

/-- cleaner.py `_mad_exclude_middle`: mean absolute deviation from the
median, over the window with the element at `half_window` removed. -/
def _mad_exclude_middle (half_window : ℕ) (x : List ℚ) : ℚ :=
  meanAbsDev (x.take half_window ++ x.drop (half_window + 1))

/-- The rolling centred medians series (`medians` in `_remove_outliers`). -/
def rollingMedians (w : ℕ) (p : List ℚ) : List ℚ :=
  (List.range p.length).map fun i => _median_exclude_middle (w / 2) (windowSlice p w i)

/-- The rolling centred MAD series (`mads` in `_remove_outliers`). -/
def rollingMads (w : ℕ) (p : List ℚ) : List ℚ :=
  (List.range p.length).map fun i => _mad_exclude_middle (w / 2) (windowSlice p w i)

/-- The boolean outlier mask `deviations > threshold * mads` of
`_remove_outliers`. -/
def outlierMask (w : ℕ) (t : ℚ) (p : List ℚ) : List Bool :=
  (List.range p.length).map fun i =>
    decide (|p.getD i 0 - (rollingMedians w p).getD i 0| > t * (rollingMads w p).getD i 0)

/-- Whether `_remove_outliers` flags the observation at index `i`. -/
def outlierFlag (w : ℕ) (t : ℚ) (p : List ℚ) (i : ℕ) : Bool :=
  (outlierMask w t p).getD i false

/-- cleaner.py `_remove_outliers`, body after the even-window check:
`frame[~outliers]`. -/
def _remove_outliers_core (w : ℕ) (t : ℚ) (f : Frame) : Frame :=
  (f.zip (outlierMask w t (f.map Tick.price))).filterMap fun x =>
    if x.2 then none else some x.1

/-- cleaner.py `_remove_outliers` including the
`window_size % 2 != 0` `ValueError`. -/
def _remove_outliers (w : ℕ) (t : ℚ) (f : Frame) : Except String Frame :=
  if w % 2 ≠ 0 then Except.error "window_size must be even"
  else Except.ok (_remove_outliers_core w t f)

/-- The `pd.Timestamp` of midnight on calendar date `d`
(`pd.to_datetime(split_date_str)`). -/
def midnight (d : ℕ) : Ts := ⟨d, 0⟩

/-- One iteration of the loop in `_adjust_for_all_splits`:
`frame.loc[frame["ts"] < split_date, "price"] /= split_ratio`. -/
def applyOneSplit (split_date : ℕ) (split_ratio : ℚ) (f : Frame) : Frame :=
  f.map fun t =>
    if Ts.lt t.ts (midnight split_date) then ⟨t.ts, t.price / split_ratio⟩ else t

/-- cleaner.py `_adjust_for_all_splits`: apply every split of the map in
order. -/
def _adjust_for_all_splits (splits : List (ℕ × ℚ)) (f : Frame) : Frame :=
  splits.foldl (fun fr s => applyOneSplit s.1 s.2 fr) f

/-- cleaner.py `adjust_for_split`: divide every price of the frame by the
ratio (no date condition), on a cleaned frame. -/
def adjust_for_split (split : ℚ) (f : CFrame) : CFrame :=
  f.map fun t => ⟨t.ts, t.price / split, t.date⟩

/-- cleaner.py `_add_date_column`: tag each tick with the calendar date of
its timestamp. -/
def _add_date_column (f : Frame) : CFrame :=
  f.map fun t => ⟨t.ts, t.price, t.ts.day⟩

/-- cleaner.py `clean_price_frame`: the full pipeline, in source order,
with the source's default outlier parameters `window_size = 50` (even, so
the `ValueError` branch of `_remove_outliers` is not taken) and
`threshold = 10`. -/
def clean_price_frame (start_time end_time : ℕ) (splits : List (ℕ × ℚ)) (f : Frame) :
    CFrame :=
  _add_date_column (_adjust_for_all_splits splits (_remove_outliers_core 50 10
    (_combine_identical_timestamps (_filter_zero_prices
      (_filter_non_trading_hours start_time end_time f)))))

/-- An instantiated estimator, as built by
`__SAMPLER__[name](lookback_window=...)`. -/
structure EstimatorInst where
  name : String
  lookback_window : ℕ
deriving DecidableEq

/-- The registry `__SAMPLER__`: a name-keyed map of estimator factories. -/
abbrev Registry := List (String × (ℕ → EstimatorInst))

/-- estimator.py `register_estimator`: raises `NameError` when the name is
already present, otherwise inserts the factory. -/
def register_estimator (name : String) (factory : ℕ → EstimatorInst) (reg : Registry) :
    Except String Registry :=
  if (reg.lookup name).isSome then
    Except.error ("Name " ++ name ++ " is already registered!")
  else Except.ok ((name, factory) :: reg)

/-- estimator.py `get_estimator`: raises `NameError` when the name is
absent, otherwise constructs an estimator from the registered factory. -/
def get_estimator (name : String) (lookback_window : ℕ) (reg : Registry) :
    Except String EstimatorInst :=
  match reg.lookup name with
  | none => Except.error ("Name " ++ name ++ " is not defined!")
  | some factory => Except.ok (factory lookback_window)

/-- `series.shift(1)`: previous element, `NaN` (= `none`) at the head. -/
def shiftPrevQ (l : List ℚ) : List (Option ℚ) := none :: (l.dropLast.map some)

/-- A pandas rolling aggregation with integer window `L` and the default
`min_periods = L` over a series with possible `NaN`s: at index `i` the
window is the last `min (i+1) L` entries ending at `i`; the aggregate `g`
is applied to the valid (non-`NaN`) values when there are exactly `L` of
them, otherwise the result is `NaN`. -/
def rollingOpt (L : ℕ) (g : List ℚ → Option ℚ) (l : List (Option ℚ)) : List (Option ℚ) :=
  (List.range l.length).map fun i =>
    if (((l.take (i + 1)).drop (i + 1 - L)).filterMap id).length = L
    then g (((l.take (i + 1)).drop (i + 1 - L)).filterMap id) else none

/-- The sorted distinct values of the `date` column: the index produced by
`groupby("date", observed=True)` (pandas sorts group keys). -/
def dateKeys (f : CFrame) : List ℕ :=
  List.insertionSort (· ≤ ·) ((f.map CTick.date).dedup)

/-- estimator.py `TickAverageRealisedVariance`:
`np.log(prices / prices.shift(1))`, row-aligned with the frame; the first
row's return is `NaN`. -/
def tick_log_returns (lg : ℚ → ℚ) (f : CFrame) : List (Option ℚ) :=
  ((f.map CTick.price).zip (shiftPrevQ (f.map CTick.price))).map fun x =>
    x.2.map fun q => lg (x.1 / q)

/-- Per-day realised variance: for each date key, the sum of squared
non-`NaN` log returns of the rows carrying that date
(`groupby("date")["log_return"].apply(λ g, np.sum(g.dropna() ** 2))`). -/
def daily_realised_variance (lg : ℚ → ℚ) (f : CFrame) : List ℚ :=
  (dateKeys f).map fun d =>
    (((f.zip (tick_log_returns lg f)).filter fun x => decide (x.1.date = d)).filterMap
      fun x => x.2.map fun r => r ^ 2).sum

/-- estimator.py `TickAverageRealisedVariance.estimate_volatility`:
rolling mean of daily realised variance over the lookback window,
annualised by `N = NUM_TRADING_DAYS`, then square-rooted. -/
def TickAverageRealisedVariance (L : ℕ) (lg sq : ℚ → ℚ) (N : ℚ) (f : CFrame) :
    List VolRecord :=
  (dateKeys f).zip
    ((rollingOpt L (fun v => some (meanQ v)) ((daily_realised_variance lg f).map some)).map
      fun v => v.map fun x => sq (x * N))

/-- `groupby("date")["price"].last()`: the last price per date, in frame
order within a group.  (Junk default `0` for an empty group, which cannot
occur since every key comes from a row.) -/
def last_prices (f : CFrame) : List ℚ :=
  (dateKeys f).map fun d =>
    (((f.filter fun t => decide (t.date = d)).map CTick.price).getLast?).getD 0

/-- Close-to-close log returns `(c_t / c_(t-1)).apply(np.log)`; the first
is `NaN`. -/
def close_log_returns (lg : ℚ → ℚ) (f : CFrame) : List (Option ℚ) :=
  ((last_prices f).zip (shiftPrevQ (last_prices f))).map fun x =>
    x.2.map fun q => lg (x.1 / q)

/-- Sample variance with `ddof = 1` (what pandas `rolling(...).std()`
squares to; its square root is taken via the abstract `sq`). -/
def sample_variance (l : List ℚ) : ℚ :=
  (l.map fun x => (x - meanQ l) ^ 2).sum / ((l.length : ℚ) - 1)

/-- estimator.py `CloseToCloseStdDeviation.estimate_volatility`: rolling
sample standard deviation of close-to-close log returns over the lookback
window, annualised by `sqrt(N)`.  A window whose valid values number fewer
than `L`, or a single-value window (`ddof = 1`), yields `NaN`. -/
def CloseToCloseStdDeviation (L : ℕ) (lg sq : ℚ → ℚ) (N : ℚ) (f : CFrame) :
    List VolRecord :=
  (dateKeys f).zip
    ((rollingOpt L (fun v => if 2 ≤ v.length then some (sq (sample_variance v)) else none)
        (close_log_returns lg f)).map
      fun v => v.map fun x => x * sq N)

/-- One OHLC bar of `resample("B").ohlc()`. -/
structure Bar where
  op : ℚ
  hi : ℚ
  lo : ℚ
  cl : ℚ
deriving DecidableEq

instance : DecidableRel fun a b : CTick => Ts.le a.ts b.ts :=
  fun a b => Ts.decLe a.ts b.ts

/-- The OHLC bar of business day `d`: first/max/min/last price of the
day's ticks in timestamp order, `none` (an all-`NaN` row) when the day has
no ticks. -/
def barOfDay (f : CFrame) (d : ℕ) : Option Bar :=
  match List.insertionSort (fun a b : CTick => Ts.le a.ts b.ts)
      (f.filter fun t => decide (t.ts.day = d)) with
  | [] => none
  | x :: xs =>
    some ⟨x.price, ((x :: xs).map CTick.price).foldl max x.price,
      ((x :: xs).map CTick.price).foldl min x.price,
      ((x :: xs).getLast (List.cons_ne_nil x xs)).price⟩

/-- The business-day index of `resample("B")`: every day from the first to
the last timestamp of the frame, including days with no ticks. -/
def yzDayRange (f : CFrame) : List ℕ :=
  match (f.map fun t => t.ts.day).min?, (f.map fun t => t.ts.day).max? with
  | some a, some b => List.range' a (b + 1 - a)
  | _, _ => []

/-- The first business day of the resampled index (`0` for an empty
frame, unused). -/
def yzFirstDay (f : CFrame) : ℕ := ((f.map fun t => t.ts.day).min?).getD 0

/-- The OHLC bars over the resampled business-day index. -/
def yzBars (f : CFrame) : List (Option Bar) := (yzDayRange f).map (barOfDay f)

/-- `shift(1)` on the bar series. -/
def shiftPrevBar (l : List (Option Bar)) : List (Option Bar) := none :: l.dropLast

/-- `fillna(0)`. -/
def fillna0 (x : Option ℚ) : ℚ := x.getD 0

/-- `(ohlc["open"] / ohlc["close"].shift(1)).apply(np.log).fillna(0)`:
`NaN` (missing bar on either side) becomes `0`. -/
def yzLogOC (lg : ℚ → ℚ) (f : CFrame) : List ℚ :=
  ((yzBars f).zip (shiftPrevBar (yzBars f))).map fun x =>
    fillna0 ((x.1.bind fun b => x.2.map fun pb => b.op / pb.cl).map lg)

/-- `(ohlc["high"] / ohlc["low"]).apply(np.log).fillna(0)`. -/
def yzLogHL (lg : ℚ → ℚ) (f : CFrame) : List ℚ :=
  (yzBars f).map fun x => fillna0 ((x.map fun b => b.hi / b.lo).map lg)

/-- `(ohlc["close"] / ohlc["open"]).apply(np.log).fillna(0)`. -/
def yzLogCO (lg : ℚ → ℚ) (f : CFrame) : List ℚ :=
  (yzBars f).map fun x => fillna0 ((x.map fun b => b.cl / b.op).map lg)

/-- The per-day Yang-Zhang term
`oc² + 0.5·hl² − (2·ln2 − 1)·co²` (each factor already `fillna(0)`-ed). -/
def yzTerms (lg : ℚ → ℚ) (f : CFrame) : List ℚ :=
  (List.range (yzDayRange f).length).map fun i =>
    (yzLogOC lg f).getD i 0 ^ 2 + 1 / 2 * (yzLogHL lg f).getD i 0 ^ 2
      - (2 * lg 2 - 1) * (yzLogCO lg f).getD i 0 ^ 2

/-- estimator.py `YangZhang.estimate_volatility`: rolling sum of the
per-day terms over the lookback window, scaled by `N / L`, then
square-rooted. -/
def YangZhang (L : ℕ) (lg sq : ℚ → ℚ) (N : ℚ) (f : CFrame) : List VolRecord :=
  (yzDayRange f).zip
    ((rollingOpt L (fun v => some v.sum) ((yzTerms lg f).map some)).map
      fun v => v.map fun s => sq (N / (L : ℚ) * s))

/-- The per-instrument partitioned price store (spec section 6: a
partitioned key-value store keyed by date), as an association list
`date ↦ partition rows`. -/
abbrev PriceStore := List (ℕ × CFrame)

/-- `to_parquet(..., partition_cols=["date"])` on the abstract store:
replace each date partition present in the frame with the frame's rows for
that date; other partitions are untouched. -/
def writePartitioned (store : PriceStore) (frame : CFrame) : PriceStore :=
  (store.filter fun p => decide (p.1 ∉ (frame.map CTick.date).dedup)) ++
    (frame.map CTick.date).dedup.map fun d => (d, frame.filter fun t => decide (t.date = d))

/-- `pd.read_parquet` over the whole partitioned dataset: partitions in
ascending date order, each row's `date` column re-derived from its
partition key. -/
def readAll (store : PriceStore) : CFrame :=
  (List.insertionSort (· ≤ ·) ((store.map Prod.fst).dedup)).map
    (fun d => ((store.lookup d).getD []).map fun t => ⟨t.ts, t.price, d⟩)
  |>.flatten

/-- process.py `incremental_process_prices`: empty file → no mutation;
otherwise clean the day in isolation (empty split map) and append its
partition; when `split_ratio ≠ 1`, re-read the full history (which now
includes the new day) and divide every price by the ratio via
`adjust_for_split`, then rewrite the store. -/
def incremental_process_prices (start_time end_time : ℕ) (store : PriceStore)
    (raw : Frame) (split_ratio : ℚ) : PriceStore :=
  if raw = [] then store
  else
    let cleaned := clean_price_frame start_time end_time [] raw
    let store1 := writePartitioned store cleaned
    if split_ratio = 1 then store1
    else writePartitioned store1 (adjust_for_split split_ratio (readAll store1))

/-- `pd.bdate_range(end=date, periods=L)`: the `L` business days ending at
`date`. -/
def previous_days (L date : ℕ) : List ℕ := List.range' (date + 1 - L) L

/-- The partition-loading loop of `incremental_compute_volatility`:
`none` as soon as any required day partition is missing, otherwise the
concatenation of the partitions with the `date` column assigned from the
partition key. -/
def load_day_partitions (store : PriceStore) (days : List ℕ) : Option CFrame :=
  (days.mapM fun d => (store.lookup d).map fun part =>
    part.map fun t => ⟨t.ts, t.price, d⟩).map List.flatten

/-- `frame.tail(1)`. -/
def tailOne (l : List VolRecord) : List VolRecord := l.drop (l.length - 1)

/-- process.py `incremental_compute_volatility` for one estimator: load
exactly the trailing `L` business-day partitions (fatal error when one is
missing — `logger.critical` and early return, so the persisted volatility
series is not rewritten), run the estimator over that bounded subset, take
the single most recent row and append it to the previously persisted
series. -/
def incremental_compute_volatility (est : CFrame → List VolRecord) (L date : ℕ)
    (store : PriceStore) (prev_vol : List VolRecord) :
    Except String (List VolRecord) :=
  match load_day_partitions store (previous_days L date) with
  | none => Except.error "Did not find data for a required day partition"
  | some frame => Except.ok (prev_vol ++ tailOne (est frame))

/-- The volatility series persisted after a call to
`incremental_compute_volatility`: the early (fatal) return leaves the
previously stored series in place. -/
def persistedVol (prev_vol : List VolRecord) (r : Except String (List VolRecord)) :
    List VolRecord :=
  match r with
  | Except.error _ => prev_vol
  | Except.ok v => v

/-- process.py `base_compute_volatility`: run the estimator over the
entire cleaned history and overwrite the stored series. -/
def base_compute_volatility (est : CFrame → List VolRecord) (store : PriceStore) :
    List VolRecord :=
  est (readAll store)


/-- Whether a modelled library call raised (`Except.error`). -/
def isFatal {e a : Type} : Except e a → Bool
  | Except.error _ => true
  | Except.ok _ => false

/-- Modelled from the spec (section 4.2), for comparison with the code's
`_remove_outliers`: the centred window of `window_size` neighbouring
observations excluding observation `i` itself — `w/2` on each side —
shrunk symmetrically at the series boundaries to the neighbours that exist
(minimum one neighbour). -/
def specNeighbors (p : List ℚ) (w i : ℕ) : List ℚ :=
  let m := min (w / 2) (min i (p.length - 1 - i))
  if m = 0 then
    if i = 0 then (p.drop 1).take 1 else (p.drop (i - 1)).take 1
  else (p.drop (i - m)).take m ++ (p.drop (i + 1)).take m

/-- Modelled from the spec (section 4.2): flag observation `i` iff
`|price[i] − median| > threshold × MAD` over the excluding-self window. -/
def specOutlierFlag (w : ℕ) (t : ℚ) (p : List ℚ) (i : ℕ) : Bool :=
  decide (|p.getD i 0 - median (specNeighbors p w i)| > t * meanAbsDev (specNeighbors p w i))

/-! ## Helper lemmas -/

theorem ts_lt_midnight (a : Ts) (d : ℕ) : Ts.lt a (midnight d) ↔ a.day < d := by
  show a.day < d ∨ (a.day = d ∧ a.tod < 0) ↔ a.day < d
  omega

theorem adjust_all_splits_eq : ∀ (splits : List (ℕ × ℚ)) (f : Frame),
    _adjust_for_all_splits splits f = f.map fun t =>
      ⟨t.ts, t.price / ((splits.filter fun s => decide (t.ts.day < s.1)).map Prod.snd).prod⟩
  | [], f => by
    simp only [_adjust_for_all_splits, List.foldl_nil, List.filter_nil, List.map_nil,
      List.prod_nil, div_one]
    exact (List.map_id f).symm
  | (D, r) :: rest, f => by
    have h1 : _adjust_for_all_splits ((D, r) :: rest) f
        = _adjust_for_all_splits rest (applyOneSplit D r f) := rfl
    rw [h1, adjust_all_splits_eq rest (applyOneSplit D r f), applyOneSplit, List.map_map]
    apply List.map_congr_left
    intro t _
    by_cases h : t.ts.day < D
    · have hlt : Ts.lt t.ts (midnight D) := (ts_lt_midnight t.ts D).mpr h
      simp only [Function.comp_apply, if_pos hlt]
      simp [List.filter_cons, h, div_div]
    · have hlt : ¬ Ts.lt t.ts (midnight D) := fun hc => h ((ts_lt_midnight t.ts D).mp hc)
      simp only [Function.comp_apply, if_neg hlt]
      simp [List.filter_cons, h]

theorem mapM_loop_eq_none {α β : Type} (g : α → Option β) :
    ∀ (l : List α) (acc : List β) (a : α), a ∈ l → g a = none →
      List.mapM.loop g l acc = none := by
  intro l
  induction l with
  | nil =>
    intro acc a ha _
    cases ha
  | cons x xs ih =>
    intro acc a ha hg
    rcases List.mem_cons.mp ha with h | h
    · subst h
      simp [List.mapM.loop, hg]
    · cases hx : g x with
      | none => simp [List.mapM.loop, hx]
      | some v =>
        simp only [List.mapM.loop, hx, Option.bind_some]
        exact ih _ a h hg

theorem mapM_eq_none_of_mem {α β : Type} (g : α → Option β) (l : List α) (a : α)
    (ha : a ∈ l) (hg : g a = none) : l.mapM g = none :=
  mapM_loop_eq_none g l [] a ha hg


theorem getD_range_map {α : Type} (n i : ℕ) (g : ℕ → α) (d : α) (h : i < n) :
    ((List.range n).map g).getD i d = g i := by
  rw [List.getD_eq_getElem?_getD, List.getElem?_map, List.getElem?_range h]
  rfl

theorem getD_zip {α β : Type} (a : List α) (b : List β) (i : ℕ) (x : α) (y : β)
    (ha : i < a.length) (hb : i < b.length) :
    (a.zip b).getD i (x, y) = (a.getD i x, b.getD i y) := by
  have hz : i < (a.zip b).length := by
    rw [List.length_zip]
    omega
  rw [List.getD_eq_getElem _ _ hz, List.getD_eq_getElem _ _ ha, List.getD_eq_getElem _ _ hb]
  exact List.getElem_zip

theorem insertionSort_getD_mem (l : List ℚ) (k : ℕ) (d : ℚ) (h : k < l.length) :
    (List.insertionSort (· ≤ ·) l).getD k d ∈ l := by
  have hlen : (List.insertionSort (· ≤ ·) l).length = l.length :=
    (List.perm_insertionSort _ l).length_eq
  have hk : k < (List.insertionSort (· ≤ ·) l).length := by omega
  rw [List.getD_eq_getElem _ _ hk]
  exact (List.perm_insertionSort (· ≤ ·) l).mem_iff.mp (List.getElem_mem hk)

theorem median_const (l : List ℚ) (m : ℚ) (hne : l ≠ []) (hc : ∀ x ∈ l, x = m) :
    median l = m := by
  have hlen : 0 < l.length := List.length_pos.mpr hne
  unfold median
  by_cases h : l.length % 2 = 1
  · rw [if_pos h]
    exact hc _ (insertionSort_getD_mem l _ 0 (by omega))
  · rw [if_neg h,
      hc _ (insertionSort_getD_mem l (l.length / 2 - 1) 0 (by omega)),
      hc _ (insertionSort_getD_mem l (l.length / 2) 0 (by omega))]
    ring

theorem median_pos (l : List ℚ) (hne : l ≠ []) (hp : ∀ x ∈ l, 0 < x) :
    0 < median l := by
  have hlen : 0 < l.length := List.length_pos.mpr hne
  unfold median
  by_cases h : l.length % 2 = 1
  · rw [if_pos h]
    exact hp _ (insertionSort_getD_mem l _ 0 (by omega))
  · rw [if_neg h]
    have h1 := hp _ (insertionSort_getD_mem l (l.length / 2 - 1) 0 (by omega))
    have h2 := hp _ (insertionSort_getD_mem l (l.length / 2) 0 (by omega))
    linarith

theorem meanAbsDev_nonneg (l : List ℚ) : 0 ≤ meanAbsDev l := by
  unfold meanAbsDev meanQ
  apply div_nonneg
  · apply List.sum_nonneg
    intro x hx
    rcases List.mem_map.mp hx with ⟨v, _, rfl⟩
    exact abs_nonneg _
  · exact_mod_cast Nat.zero_le _

theorem meanAbsDev_const (l : List ℚ) (m : ℚ) (hc : ∀ x ∈ l, x = m) :
    meanAbsDev l = 0 := by
  rcases eq_or_ne l [] with rfl | hne
  · simp [meanAbsDev, meanQ]
  · unfold meanAbsDev
    have hmap : (l.map fun v => |v - median l|) = l.map fun _ => (0 : ℚ) := by
      apply List.map_congr_left
      intro x hx
      rw [hc x hx, median_const l m hne hc, sub_self, abs_zero]
    rw [hmap]
    simp [meanQ]

theorem filterMap_zip_sublist {α : Type} :
    ∀ (l : List α) (m : List Bool),
      List.Sublist ((l.zip m).filterMap fun x => if x.2 then none else some x.1) l := by
  intro l
  induction l with
  | nil =>
    intro m
    simp
  | cons a l ih =>
    intro m
    cases m with
    | nil => simp
    | cons b bs =>
      cases b
      · simpa using (ih bs).cons₂ a
      · simpa using (ih bs).cons a

theorem filterMap_zip_not_flagged {α : Type} :
    ∀ (l : List α) (m : List Bool), l.length = m.length → (∀ b ∈ m, b = false) →
      ((l.zip m).filterMap fun x => if x.2 then none else some x.1) = l := by
  intro l
  induction l with
  | nil =>
    intro m _ _
    simp
  | cons a l ih =>
    intro m hlen hfalse
    cases m with
    | nil => cases hlen
    | cons b bs =>
      have hb : b = false := hfalse b (List.mem_cons_self b bs)
      subst hb
      have hrest := ih bs (by simpa using hlen)
        (fun x hx => hfalse x (List.mem_cons_of_mem _ hx))
      simp [hrest]

theorem filterMap_id_map_some {α : Type} (l : List α) : (l.map some).filterMap id = l := by
  induction l with
  | nil => rfl
  | cons a l ih => simp [ih]

theorem rollingOpt_map_some_getD (L : ℕ) (g : List ℚ → Option ℚ) (l : List ℚ) (k : ℕ)
    (hk : k < l.length) :
    (rollingOpt L g (l.map some)).getD k none
      = if min (k + 1) L = L then g ((l.take (k + 1)).drop (k + 1 - L)) else none := by
  unfold rollingOpt
  rw [List.length_map, getD_range_map _ _ _ _ hk, ← List.map_take, ← List.map_drop,
    filterMap_id_map_some]
  have hwl : ((l.take (k + 1)).drop (k + 1 - L)).length = min (k + 1) L := by
    rw [List.length_drop, List.length_take]
    omega
  by_cases hc : min (k + 1) L = L
  · rw [if_pos (by rw [hwl]; exact hc), if_pos hc]
  · rw [if_neg (by rw [hwl]; exact hc), if_neg hc]

theorem windowSlice_interior (p : List ℚ) (w i : ℕ) (hw : w % 2 = 0) (h2 : 2 ≤ w)
    (hlo : w / 2 ≤ i) (hhi : i + w / 2 ≤ p.length) :
    windowSlice p w i = (p.drop (i - w / 2)).take w := by
  unfold windowSlice
  have e1 : i + 1 + (w - 1) / 2 = i + w / 2 := by omega
  rw [e1]
  have e2 : i + w / 2 - w = i - w / 2 := by omega
  have e3 : i - w / 2 + w = i + w / 2 := by omega
  rw [e2, List.take_drop, e3]

theorem exclude_middle_interior (p : List ℚ) (w i : ℕ) (hw : w % 2 = 0) (h2 : 2 ≤ w)
    (hlo : w / 2 ≤ i) (hhi : i + w / 2 ≤ p.length) :
    (windowSlice p w i).take (w / 2) ++ (windowSlice p w i).drop (w / 2 + 1)
      = (p.drop (i - w / 2)).take (w / 2) ++ (p.drop (i + 1)).take (w / 2 - 1) := by
  rw [windowSlice_interior p w i hw h2 hlo hhi]
  congr 1
  · rw [List.take_take]
    congr 1
    omega
  · rw [List.take_drop, List.take_drop, List.drop_drop]
    have e4 : i - w / 2 + (w / 2 + 1) = i + 1 := by omega
    have e5 : i + 1 + (w / 2 - 1) = i - w / 2 + w := by omega
    rw [e4, e5]

/-! ## Claim theorems -/

/-- C5: for every split map with positive ratios, the split-rebasing step
divides the price of every tick strictly earlier than a split's effective
date by exactly that split's ratio and leaves later ticks unchanged by that
split; the applicable splits compose multiplicatively (each tick's price is
divided by the product of the ratios of exactly those splits whose
effective date lies strictly after the tick). -/
theorem c5_split_rebasing (splits : List (ℕ × ℚ)) (f : Frame)
    (hr : ∀ s ∈ splits, 0 < s.2) :
    _adjust_for_all_splits splits f = f.map fun t =>
      ⟨t.ts, t.price / ((splits.filter fun s => decide (t.ts.day < s.1)).map Prod.snd).prod⟩ :=
  adjust_all_splits_eq splits f

/-- Witness for C5 at a concrete input: a 2-for-1 split on day 2 and a
4-for-1 split on day 3 divide a day-0 tick by 8, a day-2 tick by 4 only,
and leave a day-4 tick unchanged. -/
theorem c5_witness :
    _adjust_for_all_splits [(2, 2), (3, 4)] [⟨⟨0, 0⟩, 8⟩, ⟨⟨2, 5⟩, 8⟩, ⟨⟨4, 0⟩, 8⟩]
      = [⟨⟨0, 0⟩, 1⟩, ⟨⟨2, 5⟩, 2⟩, ⟨⟨4, 0⟩, 8⟩] := by
  rw [c5_split_rebasing _ _ (by norm_num)]
  with_unfolding_all decide

/-- C9: registering a factory under an already-registered name fails (no
silent overwrite); requesting an unregistered name fails at lookup; for a
registered name, lookup constructs the estimator from the registered
factory. -/
theorem c9_registry_contract (reg : Registry) (name : String)
    (factory : ℕ → EstimatorInst) (L : ℕ) :
    ((reg.lookup name).isSome = true →
      isFatal (register_estimator name factory reg) = true) ∧
    (reg.lookup name = none → isFatal (get_estimator name L reg) = true) ∧
    (∀ g, reg.lookup name = some g → get_estimator name L reg = Except.ok (g L)) := by
  refine ⟨fun h => ?_, fun h => ?_, fun g h => ?_⟩
  · simp [register_estimator, h, isFatal]
  · simp [get_estimator, h, isFatal]
  · simp [get_estimator, h]

/-- Witness for C9 at a concrete registry. -/
theorem c9_witness :
    isFatal (register_estimator "yang_zhang" (fun L => ⟨"dup", L⟩)
      [("yang_zhang", fun L => ⟨"yang_zhang", L⟩)]) = true
    ∧ isFatal (get_estimator "garman_klass" 30
      [("yang_zhang", fun L => ⟨"yang_zhang", L⟩)]) = true
    ∧ get_estimator "yang_zhang" 30 [("yang_zhang", fun L => ⟨"yang_zhang", L⟩)]
      = Except.ok ⟨"yang_zhang", 30⟩ := by
  refine ⟨?_, ?_, ?_⟩
  · exact (c9_registry_contract [("yang_zhang", fun L => ⟨"yang_zhang", L⟩)]
      "yang_zhang" (fun L => ⟨"dup", L⟩) 30).1 rfl
  · exact (c9_registry_contract [("yang_zhang", fun L => ⟨"yang_zhang", L⟩)]
      "garman_klass" (fun L => ⟨"dup", L⟩) 30).2.1 rfl
  · exact (c9_registry_contract [("yang_zhang", fun L => ⟨"yang_zhang", L⟩)]
      "yang_zhang" (fun L => ⟨"dup", L⟩) 30).2.2 _ rfl

/-- C8: when any of the trailing `lookback_window` business-day partitions
is missing from the price store, the incremental volatility computation
aborts with a fatal (non-retried) error and the persisted volatility
series for that estimator is left unchanged — no record is appended. -/
theorem c8_missing_partition_fatal (est : CFrame → List VolRecord) (L date : ℕ)
    (store : PriceStore) (prev_vol : List VolRecord) (d : ℕ)
    (hd : d ∈ previous_days L date) (hmiss : store.lookup d = none) :
    isFatal (incremental_compute_volatility est L date store prev_vol) = true ∧
    persistedVol prev_vol (incremental_compute_volatility est L date store prev_vol)
      = prev_vol := by
  have h0 : load_day_partitions store (previous_days L date) = none := by
    unfold load_day_partitions
    rw [mapM_eq_none_of_mem _ _ d hd (by simp [hmiss])]
    rfl
  unfold incremental_compute_volatility
  rw [h0]
  exact ⟨rfl, rfl⟩

/-- Witness for C8: day 3 has no partition in a store holding days 0-2, so
the cycle for date 3 with a 2-day lookback window fails and appends
nothing. -/
theorem c8_witness :
    isFatal (incremental_compute_volatility (CloseToCloseStdDeviation 2 id id 252) 2 3
      [(0, [⟨⟨0, 0⟩, 1, 0⟩]), (1, [⟨⟨1, 0⟩, 2, 0⟩]), (2, [⟨⟨2, 0⟩, 4, 0⟩])]
      [(9, some 1)]) = true ∧
    persistedVol [(9, some 1)]
      (incremental_compute_volatility (CloseToCloseStdDeviation 2 id id 252) 2 3
        [(0, [⟨⟨0, 0⟩, 1, 0⟩]), (1, [⟨⟨1, 0⟩, 2, 0⟩]), (2, [⟨⟨2, 0⟩, 4, 0⟩])]
        [(9, some 1)]) = [(9, some 1)] :=
  c8_missing_partition_fatal (CloseToCloseStdDeviation 2 id id 252) 2 3
    [(0, [⟨⟨0, 0⟩, 1, 0⟩]), (1, [⟨⟨1, 0⟩, 2, 0⟩]), (2, [⟨⟨2, 0⟩, 4, 0⟩])]
    [(9, some 1)] 3 (by decide) (by decide)

/-- C4 (code bug): processing a new day (day 1, cleaned price 6) with a
registered split of ratio 2 divides the price of the pre-existing day-0
tick (10 → 5) as the claim says, but it also divides the newly appended
day's cleaned prices (6 → 3), because `adjust_for_split` is applied to the
re-read full history, which already includes the new day's partition. -/
theorem c4_split_rewrite_divides_new_day :
    clean_price_frame 0 86399 [] [⟨⟨1, 5⟩, 6⟩] = [⟨⟨1, 5⟩, 6, 1⟩] ∧
    (incremental_process_prices 0 86399 [(0, [⟨⟨0, 0⟩, 10, 0⟩])] [⟨⟨1, 5⟩, 6⟩] 2).lookup 1
      = some [⟨⟨1, 5⟩, 3, 1⟩] ∧
    (incremental_process_prices 0 86399 [(0, [⟨⟨0, 0⟩, 10, 0⟩])] [⟨⟨1, 5⟩, 6⟩] 2).lookup 0
      = some [⟨⟨0, 0⟩, 5, 0⟩] ∧
    (3 : ℚ) ≠ 6 := by with_unfolding_all decide

/-- C1 (counterexample): for the close-to-close estimator with
lookback_window 2, a three-day history with closes 1, 2, 4: the
incremental computation over the trailing 2 business days appends the
record (2, NaN), while the batch computation over the entire history
produces the defined record (2, 0·sq 252) for the same date (here with the
abstract log and sqrt instantiated to `id`), so the two values differ. -/
theorem c1_incremental_batch_counterexample :
    isFatal (incremental_compute_volatility (CloseToCloseStdDeviation 2 id id 252) 2 2
      [(0, [⟨⟨0, 0⟩, 1, 0⟩]), (1, [⟨⟨1, 0⟩, 2, 0⟩]), (2, [⟨⟨2, 0⟩, 4, 0⟩])] []) = false ∧
    persistedVol []
      (incremental_compute_volatility (CloseToCloseStdDeviation 2 id id 252) 2 2
        [(0, [⟨⟨0, 0⟩, 1, 0⟩]), (1, [⟨⟨1, 0⟩, 2, 0⟩]), (2, [⟨⟨2, 0⟩, 4, 0⟩])] [])
      = [(2, (none : Option ℚ))] ∧
    (base_compute_volatility (CloseToCloseStdDeviation 2 id id 252)
      [(0, [⟨⟨0, 0⟩, 1, 0⟩]), (1, [⟨⟨1, 0⟩, 2, 0⟩]), (2, [⟨⟨2, 0⟩, 4, 0⟩])]).getD 2 (0, none)
      = (2, some 0) ∧
    (none : Option ℚ) ≠ some 0 := by with_unfolding_all decide

/-- C3 (counterexample): the tick-average realised-variance estimator over
a two-day history with lookback_window 2 emits a record for day 0 — which
lacks enough preceding history — with `NaN` volatility, instead of
emitting no record for that day. -/
theorem c3_no_record_counterexample :
    (TickAverageRealisedVariance 2 id id 252 [⟨⟨0, 0⟩, 1, 0⟩, ⟨⟨1, 0⟩, 2, 1⟩]).length = 2 ∧
    (TickAverageRealisedVariance 2 id id 252
      [⟨⟨0, 0⟩, 1, 0⟩, ⟨⟨1, 0⟩, 2, 1⟩]).getD 0 (9, some 9) = (0, (none : Option ℚ)) := by
  with_unfolding_all decide

/-- C2 (counterexample): on the series [1, 2, 4, 8] with window_size 2 and
threshold 10, the code flags index 1 (its pandas window minus the middle
slot is the single left neighbour, so MAD = 0 and any change is flagged),
while the spec's excluding-self centred window {1, 4} has MAD 3/2 and does
not flag it. -/
theorem c2_outlier_filter_counterexample :
    outlierFlag 2 10 [1, 2, 4, 8] 1 = true ∧
    specOutlierFlag 2 10 [1, 2, 4, 8] 1 = false := by with_unfolding_all decide


theorem windowSlice_length_pos (p : List ℚ) (w i : ℕ) (hw : 1 ≤ w) (hi : i < p.length) :
    0 < (windowSlice p w i).length := by
  unfold windowSlice
  rw [List.length_drop, List.length_take]
  omega

theorem mem_windowSlice (p : List ℚ) (w i : ℕ) (x : ℚ) (hx : x ∈ windowSlice p w i) :
    x ∈ p := by
  unfold windowSlice at hx
  exact List.mem_of_mem_take (List.mem_of_mem_drop hx)

theorem exclude_middle_ne_nil (x : List ℚ) (h : ℕ) (hx : x ≠ []) (hh : 1 ≤ h) :
    x.take h ++ x.drop (h + 1) ≠ [] := by
  intro hc
  rcases List.append_eq_nil.mp hc with ⟨h1, _⟩
  have hl : (x.take h).length = 0 := by
    rw [h1]
    rfl
  rw [List.length_take] at hl
  have hlen : x.length ≠ 0 := fun h0 => hx (List.length_eq_zero.mp h0)
  omega

theorem mem_exclude_middle (x : List ℚ) (h : ℕ) (v : ℚ)
    (hv : v ∈ x.take h ++ x.drop (h + 1)) : v ∈ x := by
  rcases List.mem_append.mp hv with hv | hv
  · exact List.mem_of_mem_take hv
  · exact List.mem_of_mem_drop hv

theorem outlierFlag_spelled (w : ℕ) (t : ℚ) (p : List ℚ) (i : ℕ) (hi : i < p.length) :
    outlierFlag w t p i
      = decide (|p.getD i 0 - _median_exclude_middle (w / 2) (windowSlice p w i)|
          > t * _mad_exclude_middle (w / 2) (windowSlice p w i)) := by
  unfold outlierFlag outlierMask rollingMedians rollingMads
  rw [getD_range_map _ _ _ _ hi]
  rw [getD_range_map _ _ _ _ hi, getD_range_map _ _ _ _ hi]

theorem getD_mem_of_lt (l : List ℚ) (i : ℕ) (d : ℚ) (hi : i < l.length) :
    l.getD i d ∈ l := by
  rw [List.getD_eq_getElem _ _ hi]
  exact List.getElem_mem hi

theorem outlierFlag_false_of_flat (w : ℕ) (t : ℚ) (p : List ℚ) (i : ℕ)
    (ht : 0 ≤ t) (hi : i < p.length)
    (heq : p.getD i 0 = _median_exclude_middle (w / 2) (windowSlice p w i)) :
    outlierFlag w t p i = false := by
  rw [outlierFlag_spelled w t p i hi]
  rw [decide_eq_false_iff_not]
  rw [heq, sub_self, abs_zero]
  exact not_lt.mpr (mul_nonneg ht (meanAbsDev_nonneg _))

/-- C10: because the outlier test uses a strict inequality
`deviation > threshold * MAD` with a nonnegative threshold, an observation
whose price equals the rolling (excluding-middle) median of its window is
never flagged, even when the MAD is 0; in particular the filter leaves a
constant-price series entirely unchanged. -/
theorem c10_strict_inequality (w : ℕ) (t : ℚ) (f : Frame) (ht : 0 ≤ t) (h2 : 2 ≤ w) :
    (∀ i, i < f.length →
      (f.map Tick.price).getD i 0
        = _median_exclude_middle (w / 2) (windowSlice (f.map Tick.price) w i) →
      outlierFlag w t (f.map Tick.price) i = false) ∧
    ((∀ a ∈ f, ∀ b ∈ f, a.price = b.price) → _remove_outliers_core w t f = f) := by
  constructor
  · intro i hi heq
    exact outlierFlag_false_of_flat w t (f.map Tick.price) i ht
      (by rw [List.length_map]; exact hi) heq
  · intro hconst
    have hmaskfalse : ∀ b ∈ outlierMask w t (f.map Tick.price), b = false := by
      intro b hb
      rcases List.mem_map.mp hb with ⟨i, hirange, rfl⟩
      have hip : i < (f.map Tick.price).length := List.mem_range.mp hirange
      have hwin0 : 0 < (windowSlice (f.map Tick.price) w i).length :=
        windowSlice_length_pos _ w i (by omega) hip
      have hwne : windowSlice (f.map Tick.price) w i ≠ [] := by
        intro hc
        rw [hc] at hwin0
        exact absurd hwin0 (by simp)
      have hexne := exclude_middle_ne_nil (windowSlice (f.map Tick.price) w i) (w / 2)
        hwne (by omega)
      have hgd : (f.map Tick.price).getD i 0 ∈ f.map Tick.price :=
        getD_mem_of_lt _ i 0 hip
      have hallc : ∀ x ∈ (windowSlice (f.map Tick.price) w i).take (w / 2)
          ++ (windowSlice (f.map Tick.price) w i).drop (w / 2 + 1),
          x = (f.map Tick.price).getD i 0 := by
        intro x hx
        have hxp : x ∈ f.map Tick.price :=
          mem_windowSlice _ w i x (mem_exclude_middle _ (w / 2) x hx)
        rcases List.mem_map.mp hxp with ⟨u, hu, rfl⟩
        rcases List.mem_map.mp hgd with ⟨v, hv, hveq⟩
        rw [← hveq]
        exact hconst u hu v hv
      have heq : (f.map Tick.price).getD i 0
          = _median_exclude_middle (w / 2) (windowSlice (f.map Tick.price) w i) := by
        unfold _median_exclude_middle
        exact (median_const _ _ hexne hallc).symm
      have hmask := outlierFlag_false_of_flat w t (f.map Tick.price) i ht hip heq
      rw [outlierFlag_spelled w t (f.map Tick.price) i hip] at hmask
      unfold rollingMedians rollingMads
      rw [getD_range_map _ _ _ _ hip, getD_range_map _ _ _ _ hip]
      exact hmask
    unfold _remove_outliers_core
    apply filterMap_zip_not_flagged
    · unfold outlierMask
      rw [List.length_map, List.length_range, List.length_map]
    · exact hmaskfalse

/-- Witness for C10: the outlier filter with the pipeline's parameters
(window 50, threshold 10) leaves a constant-price frame unchanged. -/
theorem c10_witness :
    _remove_outliers_core 50 10 [⟨⟨0, 0⟩, 5⟩, ⟨⟨0, 1⟩, 5⟩, ⟨⟨1, 0⟩, 5⟩]
      = [⟨⟨0, 0⟩, 5⟩, ⟨⟨0, 1⟩, 5⟩, ⟨⟨1, 0⟩, 5⟩] :=
  (c10_strict_inequality 50 10 [⟨⟨0, 0⟩, 5⟩, ⟨⟨0, 1⟩, 5⟩, ⟨⟨1, 0⟩, 5⟩]
    (by norm_num) (by norm_num)).2 (by with_unfolding_all decide)

/-- C2 (amended): for an even `window_size = w ≥ 2`, at every interior
index (`w/2 ≤ i` and `i + w/2 ≤ n`), the filter flags observation `i` iff
`|price[i] − median| > threshold × MAD` where median and MAD are taken
over the `w − 1` neighbours consisting of the `w/2` observations to the
left of `i` and the `w/2 − 1` observations to its right (the pandas
centred window of `w` rows minus the slot holding observation `i` itself)
— not over a symmetric window of `w` neighbours; and when all those
neighbours share one value `m`, the MAD is 0 and observation `i` is
flagged iff its price differs from `m` at all. -/
theorem c2_outlier_filter_amended (p : List ℚ) (w : ℕ) (t : ℚ) (i : ℕ)
    (hw : w % 2 = 0) (h2 : 2 ≤ w) (hlo : w / 2 ≤ i) (hhi : i + w / 2 ≤ p.length) :
    (outlierFlag w t p i = true ↔
      |p.getD i 0 - median ((p.drop (i - w / 2)).take (w / 2)
          ++ (p.drop (i + 1)).take (w / 2 - 1))|
        > t * meanAbsDev ((p.drop (i - w / 2)).take (w / 2)
          ++ (p.drop (i + 1)).take (w / 2 - 1))) ∧
    ∀ m : ℚ,
      (∀ x ∈ (p.drop (i - w / 2)).take (w / 2) ++ (p.drop (i + 1)).take (w / 2 - 1), x = m) →
      (outlierFlag w t p i = true ↔ ¬ p.getD i 0 = m) := by
  have hi : i < p.length := by omega
  have hspell := outlierFlag_spelled w t p i hi
  have hexcl := exclude_middle_interior p w i hw h2 hlo hhi
  have hmain : outlierFlag w t p i = true ↔
      |p.getD i 0 - median ((p.drop (i - w / 2)).take (w / 2)
          ++ (p.drop (i + 1)).take (w / 2 - 1))|
        > t * meanAbsDev ((p.drop (i - w / 2)).take (w / 2)
          ++ (p.drop (i + 1)).take (w / 2 - 1)) := by
    rw [hspell, decide_eq_true_eq]
    unfold _median_exclude_middle _mad_exclude_middle
    rw [hexcl]
  refine ⟨hmain, fun m hm => ?_⟩
  have hne : (p.drop (i - w / 2)).take (w / 2) ++ (p.drop (i + 1)).take (w / 2 - 1) ≠ [] := by
    intro hc
    rcases List.append_eq_nil.mp hc with ⟨h1, _⟩
    have hl := congrArg List.length h1
    rw [List.length_take, List.length_drop] at hl
    simp at hl
    omega
  rw [hmain, median_const _ m hne hm, meanAbsDev_const _ m hm, mul_zero]
  constructor
  · intro hgt hc
    rw [hc, sub_self, abs_zero] at hgt
    exact absurd hgt (by norm_num)
  · intro hne2
    exact abs_pos.mpr (sub_ne_zero.mpr hne2)

/-- Witness for C2's amended theorem: with all four neighbours equal to 1,
the interior observation (also 1) is not flagged. -/
theorem c2_amended_witness : outlierFlag 4 10 [1, 1, 1, 1, 1] 2 = false := by
  have h := (c2_outlier_filter_amended [1, 1, 1, 1, 1] 4 10 2 (by norm_num) (by norm_num)
    (by norm_num) (by norm_num)).2 1 (by with_unfolding_all decide)
  cases hf : outlierFlag 4 10 [1, 1, 1, 1, 1] 2
  · rfl
  · exact absurd (h.mp hf) (by with_unfolding_all decide)

/-- C3 (amended): each estimator emits one record row per distinct date of
the cleaned frame (shown here for the tick-average realised-variance
estimator, the one the claim singles out); the row for the k-th distinct
date carries that date, and its volatility is NaN — not absent — exactly
when fewer than `lookback_window` dates have accumulated (`k + 1 < L`);
in particular the first defined value appears on the L-th distinct day,
which has only `L − 1` complete prior days. -/
theorem c3_nan_records_amended (lg sq : ℚ → ℚ) (N : ℚ) (L : ℕ) (f : CFrame) :
    (TickAverageRealisedVariance L lg sq N f).length = (dateKeys f).length ∧
    ∀ k, k < (dateKeys f).length →
      ((TickAverageRealisedVariance L lg sq N f).getD k (0, none)).1
          = (dateKeys f).getD k 0 ∧
      (((TickAverageRealisedVariance L lg sq N f).getD k (0, none)).2 = none ↔ k + 1 < L) := by
  have hdrv : (daily_realised_variance lg f).length = (dateKeys f).length := by
    unfold daily_realised_variance
    rw [List.length_map]
  have hroll : (rollingOpt L (fun v => some (meanQ v))
      ((daily_realised_variance lg f).map some)).length = (dateKeys f).length := by
    unfold rollingOpt
    rw [List.length_map, List.length_range, List.length_map, hdrv]
  have hvols : ((rollingOpt L (fun v => some (meanQ v))
      ((daily_realised_variance lg f).map some)).map
        (fun v => v.map fun x => sq (x * N))).length = (dateKeys f).length := by
    rw [List.length_map, hroll]
  constructor
  · unfold TickAverageRealisedVariance
    rw [List.length_zip, hvols, Nat.min_self]
  · intro k hk
    have hkv : k < ((rollingOpt L (fun v => some (meanQ v))
        ((daily_realised_variance lg f).map some)).map
          (fun v => v.map fun x => sq (x * N))).length := by
      rw [hvols]
      exact hk
    have hkr : k < (rollingOpt L (fun v => some (meanQ v))
        ((daily_realised_variance lg f).map some)).length := by
      rw [hroll]
      exact hk
    have hzip : (TickAverageRealisedVariance L lg sq N f).getD k (0, none)
        = ((dateKeys f).getD k 0,
          ((rollingOpt L (fun v => some (meanQ v))
            ((daily_realised_variance lg f).map some)).map
              (fun v => v.map fun x => sq (x * N))).getD k none) := by
      unfold TickAverageRealisedVariance
      exact getD_zip _ _ k 0 none hk hkv
    rw [hzip]
    refine ⟨rfl, ?_⟩
    have hmap : ((rollingOpt L (fun v => some (meanQ v))
        ((daily_realised_variance lg f).map some)).map
          (fun v => v.map fun x => sq (x * N))).getD k none
        = ((rollingOpt L (fun v => some (meanQ v))
            ((daily_realised_variance lg f).map some)).getD k none).map
              fun x => sq (x * N) := by
      rw [List.getD_eq_getElem _ _ hkv, List.getD_eq_getElem _ _ hkr, List.getElem_map]
    rw [hmap, rollingOpt_map_some_getD L (fun v => some (meanQ v))
      (daily_realised_variance lg f) k (by rw [hdrv]; exact hk)]
    by_cases hc : min (k + 1) L = L
    · rw [if_pos hc]
      have hnot : ¬ (k + 1 < L) := by omega
      simp [hnot]
    · rw [if_neg hc]
      have hyes : k + 1 < L := by omega
      simp [hyes]

/-- Witness for C3's amended theorem at a concrete two-day frame with
lookback 2: two rows, row 0 = (date 0, NaN). -/
theorem c3_amended_witness :
    (TickAverageRealisedVariance 2 id id 252 [⟨⟨0, 0⟩, 1, 0⟩, ⟨⟨1, 0⟩, 2, 1⟩]).length
      = (dateKeys [⟨⟨0, 0⟩, 1, 0⟩, ⟨⟨1, 0⟩, 2, 1⟩]).length ∧
    ((TickAverageRealisedVariance 2 id id 252
      [⟨⟨0, 0⟩, 1, 0⟩, ⟨⟨1, 0⟩, 2, 1⟩]).getD 0 (0, none)).2 = none := by
  have h := c3_nan_records_amended id id 252 2 [⟨⟨0, 0⟩, 1, 0⟩, ⟨⟨1, 0⟩, 2, 1⟩]
  refine ⟨h.1, ?_⟩
  exact (h.2 0 (by with_unfolding_all decide)).2.mpr (by norm_num)

/-- C1 (amended): the incremental trailing-window computation does not in
general reproduce the batch day-N+1 record, because each estimator's term
for the first day of the window depends on the preceding day's data, which
the window omits.  In particular, for the close-to-close estimator run
over a frame with exactly `lookback_window ≥ 1` distinct dates (which is
what `incremental_compute_volatility` feeds it), the final record — the
one `tail(1)` appends — always has NaN volatility: the window of exactly
`L` days yields only `L − 1` defined close-to-close returns, fewer than
the `L` valid values the rolling standard deviation requires. -/
theorem c1_incremental_window_close_to_close_nan (lg sq : ℚ → ℚ) (N : ℚ) (L : ℕ)
    (f : CFrame) (hL : 1 ≤ L) (hd : (dateKeys f).length = L) :
    ((CloseToCloseStdDeviation L lg sq N f).getD (L - 1) (0, some 0)).2 = none := by
  have hlp : (last_prices f).length = L := by
    unfold last_prices
    rw [List.length_map, hd]
  have hshift : (shiftPrevQ (last_prices f)).length = L := by
    unfold shiftPrevQ
    rw [List.length_cons, List.length_map, List.length_dropLast, hlp]
    omega
  have hret : (close_log_returns lg f).length = L := by
    unfold close_log_returns
    rw [List.length_map, List.length_zip, hlp, hshift, Nat.min_self]
  obtain ⟨rest, hrest⟩ : ∃ rest, close_log_returns lg f = none :: rest := by
    unfold close_log_returns shiftPrevQ
    cases hcl : last_prices f with
    | nil =>
      exfalso
      rw [hcl] at hlp
      simp at hlp
      omega
    | cons c cs =>
      refine ⟨(cs.zip (((c :: cs).dropLast).map some)).map fun x =>
        x.2.map fun q => lg (x.1 / q), ?_⟩
      rfl
  have hrl : rest.length = L - 1 := by
    have h1 := hret
    rw [hrest] at h1
    rw [List.length_cons] at h1
    omega
  have hroll : (rollingOpt L (fun v => if 2 ≤ v.length then some (sq (sample_variance v))
      else none) (close_log_returns lg f)).length = L := by
    unfold rollingOpt
    rw [List.length_map, List.length_range, hret]
  have hvols : ((rollingOpt L (fun v => if 2 ≤ v.length then some (sq (sample_variance v))
      else none) (close_log_returns lg f)).map (fun v => v.map fun x => x * sq N)).length
      = L := by
    rw [List.length_map, hroll]
  have hzip := getD_zip (dateKeys f)
    ((rollingOpt L (fun v => if 2 ≤ v.length then some (sq (sample_variance v))
      else none) (close_log_returns lg f)).map (fun v => v.map fun x => x * sq N))
    (L - 1) 0 (some 0) (by rw [hd]; omega) (by rw [hvols]; omega)
  unfold CloseToCloseStdDeviation
  rw [hzip]
  have hmap : ((rollingOpt L (fun v => if 2 ≤ v.length then some (sq (sample_variance v))
      else none) (close_log_returns lg f)).map (fun v => v.map fun x => x * sq N)).getD
        (L - 1) (some 0)
      = ((rollingOpt L (fun v => if 2 ≤ v.length then some (sq (sample_variance v))
          else none) (close_log_returns lg f)).getD (L - 1) none).map fun x => x * sq N := by
    rw [List.getD_eq_getElem _ _ (by rw [hvols]; omega),
      List.getD_eq_getElem _ _ (by rw [hroll]; omega), List.getElem_map]
  have hcore : (rollingOpt L (fun v => if 2 ≤ v.length then some (sq (sample_variance v))
      else none) (close_log_returns lg f)).getD (L - 1) none = none := by
    unfold rollingOpt
    rw [getD_range_map _ _ _ _ (by rw [hret]; omega)]
    have htake : (close_log_returns lg f).take (L - 1 + 1) = close_log_returns lg f := by
      apply List.take_of_length_le
      rw [hret]
      omega
    have hdrop : L - 1 + 1 - L = 0 := by omega
    rw [htake, hdrop, List.drop_zero, hrest]
    have hfm : (none :: rest).filterMap (@id (Option ℚ)) = rest.filterMap id := by
      simp
    rw [hfm]
    have hle := List.length_filterMap_le (@id (Option ℚ)) rest
    rw [if_neg (by omega)]
  rw [hmap, hcore]
  rfl

/-- Witness for C1's amended theorem at a concrete two-day window. -/
theorem c1_amended_witness :
    ((CloseToCloseStdDeviation 2 id id 252
      [⟨⟨1, 0⟩, 2, 1⟩, ⟨⟨2, 0⟩, 4, 2⟩]).getD 1 (0, some 0)).2 = none :=
  c1_incremental_window_close_to_close_nan id id 252 2
    [⟨⟨1, 0⟩, 2, 1⟩, ⟨⟨2, 0⟩, 4, 2⟩] (by norm_num) (by with_unfolding_all decide)

theorem yzDayRange_eq_range' (f : CFrame) :
    yzDayRange f = List.range' (yzFirstDay f) (yzDayRange f).length := by
  unfold yzDayRange yzFirstDay
  cases hmin : (f.map fun t => t.ts.day).min? with
  | none =>
    have hnil : (f.map fun t => t.ts.day) = [] := List.min?_eq_none_iff.mp hmin
    have hmax : (f.map fun t => t.ts.day).max? = none := by
      rw [hnil]
      rfl
    rw [hmax]
    rfl
  | some a =>
    cases hmax : (f.map fun t => t.ts.day).max? with
    | none =>
      exfalso
      have hnil : (f.map fun t => t.ts.day) = [] := List.max?_eq_none_iff.mp hmax
      rw [List.min?_eq_none_iff.mpr hnil] at hmin
      cases hmin
    | some b =>
      simp [List.length_range']

theorem yzBars_length (f : CFrame) : (yzBars f).length = (yzDayRange f).length := by
  unfold yzBars
  rw [List.length_map]

theorem yzBars_getElem_none (f : CFrame) (d : ℕ) (hd : d ∈ yzDayRange f)
    (hmiss : f.filter (fun t => decide (t.ts.day = d)) = [])
    (hk : d - yzFirstDay f < (yzBars f).length) :
    (yzBars f)[d - yzFirstDay f] = none := by
  have hd2 : d ∈ List.range' (yzFirstDay f) (yzDayRange f).length := by
    rw [← yzDayRange_eq_range']
    exact hd
  rcases List.mem_range'.mp hd2 with ⟨j, hj, hdj⟩
  have hk2 : d - yzFirstDay f < (yzDayRange f).length := by
    rw [yzBars_length] at hk
    exact hk
  have hday : (yzDayRange f).getD (d - yzFirstDay f) 0 = d := by
    rw [yzDayRange_eq_range', List.getD_eq_getElem _ _
      (by rw [List.length_range']; exact hk2), List.getElem_range'_1]
    omega
  have hb2 : (yzBars f)[d - yzFirstDay f]
      = barOfDay f ((yzDayRange f).getD (d - yzFirstDay f) 0) := by
    unfold yzBars
    simp only [List.getElem_map]
    congr 1
    exact (List.getD_eq_getElem _ _ hk2).symm
  rw [hb2, hday]
  unfold barOfDay
  rw [hmiss]
  rfl

/-- C6: on a business day inside the resampled span that has no ticks
(an absent OHLC bar), each of the Yang-Zhang day's three log ratios
(open/prev-close, high/low, close/open) is `fillna(0)`-ed to 0 before
squaring, the day's whole term is 0, and every full-window rolling sum of
the terms is a defined value — no NaN from the missing bar propagates. -/
theorem c6_yang_zhang_missing_day (lg : ℚ → ℚ) (f : CFrame) (d : ℕ)
    (hd : d ∈ yzDayRange f)
    (hmiss : f.filter (fun t => decide (t.ts.day = d)) = []) :
    d - yzFirstDay f < (yzDayRange f).length ∧
    (yzLogOC lg f).getD (d - yzFirstDay f) 0 = 0 ∧
    (yzLogHL lg f).getD (d - yzFirstDay f) 0 = 0 ∧
    (yzLogCO lg f).getD (d - yzFirstDay f) 0 = 0 ∧
    (yzTerms lg f).getD (d - yzFirstDay f) 0 = 0 ∧
    ∀ L i, i < (yzDayRange f).length → L ≤ i + 1 →
      ((rollingOpt L (fun v => some v.sum) ((yzTerms lg f).map some)).getD i none).isSome
        = true := by
  have hd2 : d ∈ List.range' (yzFirstDay f) (yzDayRange f).length := by
    rw [← yzDayRange_eq_range']
    exact hd
  rcases List.mem_range'.mp hd2 with ⟨j, hj, hdj⟩
  have hn : 0 < (yzDayRange f).length := by omega
  have hk2 : d - yzFirstDay f < (yzDayRange f).length := by omega
  have hkb : d - yzFirstDay f < (yzBars f).length := by
    rw [yzBars_length]
    exact hk2
  have hbar := yzBars_getElem_none f d hd hmiss hkb
  have hshiftlen : (shiftPrevBar (yzBars f)).length = (yzDayRange f).length := by
    unfold shiftPrevBar
    rw [List.length_cons, List.length_dropLast, yzBars_length]
    omega
  have hoc : (yzLogOC lg f).getD (d - yzFirstDay f) 0 = 0 := by
    unfold yzLogOC
    have hzlen : ((yzBars f).zip (shiftPrevBar (yzBars f))).length
        = (yzDayRange f).length := by
      rw [List.length_zip, hshiftlen, yzBars_length, Nat.min_self]
    have hklt : d - yzFirstDay f
        < (((yzBars f).zip (shiftPrevBar (yzBars f))).map fun x =>
            fillna0 ((x.1.bind fun b => x.2.map fun pb => b.op / pb.cl).map lg)).length := by
      rw [List.length_map, hzlen]
      exact hk2
    rw [List.getD_eq_getElem _ _ hklt, List.getElem_map, List.getElem_zip, hbar]
    rfl
  have hhl : (yzLogHL lg f).getD (d - yzFirstDay f) 0 = 0 := by
    unfold yzLogHL
    have hklt : d - yzFirstDay f
        < ((yzBars f).map fun x => fillna0 ((x.map fun b => b.hi / b.lo).map lg)).length := by
      rw [List.length_map]
      exact hkb
    rw [List.getD_eq_getElem _ _ hklt, List.getElem_map, hbar]
    rfl
  have hco : (yzLogCO lg f).getD (d - yzFirstDay f) 0 = 0 := by
    unfold yzLogCO
    have hklt : d - yzFirstDay f
        < ((yzBars f).map fun x => fillna0 ((x.map fun b => b.cl / b.op).map lg)).length := by
      rw [List.length_map]
      exact hkb
    rw [List.getD_eq_getElem _ _ hklt, List.getElem_map, hbar]
    rfl
  have hterm : (yzTerms lg f).getD (d - yzFirstDay f) 0 = 0 := by
    unfold yzTerms
    rw [getD_range_map _ _ _ _ hk2, hoc, hhl, hco]
    ring
  refine ⟨hk2, hoc, hhl, hco, hterm, fun L i hi hLi => ?_⟩
  have htlen : (yzTerms lg f).length = (yzDayRange f).length := by
    unfold yzTerms
    rw [List.length_map, List.length_range]
  rw [rollingOpt_map_some_getD L (fun v => some v.sum) (yzTerms lg f) i
    (by rw [htlen]; exact hi)]
  rw [if_pos (by omega)]
  rfl

/-- Witness for C6: a frame trading on days 0 and 2 with the gap day 1:
the day-1 term is 0 and the 2-day rolling sums are defined. -/
theorem c6_witness :
    (yzTerms id [⟨⟨0, 0⟩, 1, 0⟩, ⟨⟨2, 0⟩, 2, 2⟩]).getD
      (1 - yzFirstDay [⟨⟨0, 0⟩, 1, 0⟩, ⟨⟨2, 0⟩, 2, 2⟩]) 0 = 0 ∧
    ((rollingOpt 2 (fun v => some v.sum)
      ((yzTerms id [⟨⟨0, 0⟩, 1, 0⟩, ⟨⟨2, 0⟩, 2, 2⟩]).map some)).getD 1 none).isSome
      = true := by
  have h := c6_yang_zhang_missing_day id [⟨⟨0, 0⟩, 1, 0⟩, ⟨⟨2, 0⟩, 2, 2⟩] 1
    (by with_unfolding_all decide) (by with_unfolding_all decide)
  exact ⟨h.2.2.2.2.1, h.2.2.2.2.2 2 1 (by with_unfolding_all decide) (by norm_num)⟩

theorem ts_lt_of_le_of_ne (a b : Ts) (h1 : Ts.le a b) (h2 : a ≠ b) : Ts.lt a b := by
  have h3 : ¬(a.day = b.day ∧ a.tod = b.tod) := by
    intro hc
    apply h2
    cases a
    cases b
    simp_all
  unfold Ts.le at h1
  unfold Ts.lt
  omega

theorem ts_ne_of_lt (a b : Ts) (h : Ts.lt a b) : a ≠ b := by
  intro hc
  subst hc
  unfold Ts.lt at h
  omega

theorem combine_mem (f : Frame) (x : Tick) (hx : x ∈ _combine_identical_timestamps f) :
    (∃ t ∈ f, t.ts = x.ts) ∧
      x.price = median ((f.filter fun t => decide (t.ts = x.ts)).map Tick.price) := by
  unfold _combine_identical_timestamps at hx
  rcases List.mem_map.mp hx with ⟨k, hk, rfl⟩
  have hk3 : k ∈ f.map Tick.ts := List.mem_dedup.mp ((List.mem_insertionSort Ts.le).mp hk)
  rcases List.mem_map.mp hk3 with ⟨t, ht, hts⟩
  exact ⟨⟨t, ht, hts⟩, rfl⟩

theorem combine_pairwise (f : Frame) :
    List.Pairwise (fun a b : Tick => Ts.lt a.ts b.ts) (_combine_identical_timestamps f) := by
  unfold _combine_identical_timestamps
  rw [List.pairwise_map]
  have hsorted : List.Sorted Ts.le (List.insertionSort Ts.le ((f.map Tick.ts).dedup)) :=
    List.sorted_insertionSort Ts.le ((f.map Tick.ts).dedup)
  have hnodup : (List.insertionSort Ts.le ((f.map Tick.ts).dedup)).Nodup :=
    ((List.perm_insertionSort Ts.le ((f.map Tick.ts).dedup)).nodup_iff).mpr
      (List.nodup_dedup _)
  have hpair := List.Pairwise.and hsorted hnodup
  exact hpair.imp fun hab => ts_lt_of_le_of_ne _ _ hab.1 hab.2

theorem remove_outliers_sublist (w : ℕ) (t : ℚ) (f : Frame) :
    List.Sublist (_remove_outliers_core w t f) f := by
  unfold _remove_outliers_core
  exact filterMap_zip_sublist f (outlierMask w t (f.map Tick.price))

/-- C7: for every raw frame and every split map with positive ratios, the
cleaned output satisfies the invariants: all prices strictly positive, all
times of day inside the configured inclusive trading-hours window, no two
rows sharing a timestamp, and rows strictly ascending by timestamp. -/
theorem c7_cleaning_invariants (start_time end_time : ℕ) (splits : List (ℕ × ℚ)) (f : Frame)
    (hr : ∀ s ∈ splits, 0 < s.2) :
    (∀ x ∈ clean_price_frame start_time end_time splits f, 0 < x.price) ∧
    (∀ x ∈ clean_price_frame start_time end_time splits f,
      start_time ≤ x.ts.tod ∧ x.ts.tod ≤ end_time) ∧
    List.Pairwise (fun a b : CTick => a.ts ≠ b.ts)
      (clean_price_frame start_time end_time splits f) ∧
    List.Pairwise (fun a b : CTick => Ts.lt a.ts b.ts)
      (clean_price_frame start_time end_time splits f) := by
  -- facts about the price- and hours-filtered stage
  have hg2pos : ∀ t ∈ _filter_zero_prices (_filter_non_trading_hours start_time end_time f),
      0 < t.price := by
    intro t ht
    unfold _filter_zero_prices at ht
    exact of_decide_eq_true (List.mem_filter.mp ht).2
  have hg2hours : ∀ t ∈ _filter_zero_prices (_filter_non_trading_hours start_time end_time f),
      start_time ≤ t.ts.tod ∧ t.ts.tod ≤ end_time := by
    intro t ht
    unfold _filter_zero_prices at ht
    have ht2 := List.mem_of_mem_filter ht
    unfold _filter_non_trading_hours at ht2
    exact of_decide_eq_true (List.mem_filter.mp ht2).2
  -- facts about the duplicate-timestamp aggregation stage
  have hg3pos : ∀ t ∈ _combine_identical_timestamps (_filter_zero_prices
      (_filter_non_trading_hours start_time end_time f)), 0 < t.price := by
    intro t ht
    rcases combine_mem _ t ht with ⟨⟨u, hu, hut⟩, hp⟩
    rw [hp]
    refine median_pos _ ?_ ?_
    · intro hc
      have humem : u ∈ (_filter_zero_prices
          (_filter_non_trading_hours start_time end_time f)).filter
            fun v => decide (v.ts = t.ts) :=
        List.mem_filter.mpr ⟨hu, decide_eq_true hut⟩
      exact List.ne_nil_of_mem humem (List.map_eq_nil_iff.mp hc)
    · intro q hq
      rcases List.mem_map.mp hq with ⟨v, hv, rfl⟩
      exact hg2pos v (List.mem_of_mem_filter hv)
  have hg3hours : ∀ t ∈ _combine_identical_timestamps (_filter_zero_prices
      (_filter_non_trading_hours start_time end_time f)),
      start_time ≤ t.ts.tod ∧ t.ts.tod ≤ end_time := by
    intro t ht
    rcases combine_mem _ t ht with ⟨⟨u, hu, hut⟩, _⟩
    rw [← hut]
    exact hg2hours u hu
  have hg3pair := combine_pairwise (_filter_zero_prices
    (_filter_non_trading_hours start_time end_time f))
  -- the outlier stage is a sublist of the aggregation stage
  have hsub := remove_outliers_sublist 50 10 (_combine_identical_timestamps
    (_filter_zero_prices (_filter_non_trading_hours start_time end_time f)))
  have hg4pos : ∀ t ∈ _remove_outliers_core 50 10 (_combine_identical_timestamps
      (_filter_zero_prices (_filter_non_trading_hours start_time end_time f))),
      0 < t.price := fun t ht => hg3pos t (hsub.subset ht)
  have hg4hours : ∀ t ∈ _remove_outliers_core 50 10 (_combine_identical_timestamps
      (_filter_zero_prices (_filter_non_trading_hours start_time end_time f))),
      start_time ≤ t.ts.tod ∧ t.ts.tod ≤ end_time :=
    fun t ht => hg3hours t (hsub.subset ht)
  have hg4pair := hg3pair.sublist hsub
  -- unfold the final two (price-only and tag-only) map stages
  have hclean : clean_price_frame start_time end_time splits f
      = (_remove_outliers_core 50 10 (_combine_identical_timestamps
          (_filter_zero_prices (_filter_non_trading_hours start_time end_time f)))).map
        fun t => (⟨t.ts, t.price / ((splits.filter fun s =>
            decide (t.ts.day < s.1)).map Prod.snd).prod, t.ts.day⟩ : CTick) := by
    unfold clean_price_frame _add_date_column
    rw [adjust_all_splits_eq, List.map_map]
    rfl
  rw [hclean]
  refine ⟨?_, ?_, ?_, ?_⟩
  · intro x hx
    rcases List.mem_map.mp hx with ⟨t, ht, rfl⟩
    refine div_pos (hg4pos t ht) (List.prod_pos ?_)
    intro q hq
    rcases List.mem_map.mp hq with ⟨s, hs, rfl⟩
    exact hr s (List.mem_of_mem_filter hs)
  · intro x hx
    rcases List.mem_map.mp hx with ⟨t, ht, rfl⟩
    exact hg4hours t ht
  · rw [List.pairwise_map]
    exact hg4pair.imp fun hab => ts_ne_of_lt _ _ hab
  · rw [List.pairwise_map]
    exact hg4pair

/-- Witness for C7: a raw frame with an out-of-hours tick, a nonpositive
price, duplicated timestamps and unsorted input cleans to a frame whose
first two rows are positive-priced, inside hours, and strictly
time-ordered. -/
theorem c7_witness :
    0 < ((clean_price_frame 9 17 [(5, 2)]
      [⟨⟨4, 3⟩, 7⟩, ⟨⟨3, 12⟩, 6⟩, ⟨⟨3, 10⟩, -2⟩, ⟨⟨3, 12⟩, 8⟩]).getD 0
        ⟨⟨0, 0⟩, 1, 0⟩).price ∧
    9 ≤ ((clean_price_frame 9 17 [(5, 2)]
      [⟨⟨4, 3⟩, 7⟩, ⟨⟨3, 12⟩, 6⟩, ⟨⟨3, 10⟩, -2⟩, ⟨⟨3, 12⟩, 8⟩]).getD 0
        ⟨⟨0, 0⟩, 1, 0⟩).ts.tod := by
  have h := c7_cleaning_invariants 9 17 [(5, 2)]
    [⟨⟨4, 3⟩, 7⟩, ⟨⟨3, 12⟩, 6⟩, ⟨⟨3, 10⟩, -2⟩, ⟨⟨3, 12⟩, 8⟩] (by norm_num)
  have hmem : (clean_price_frame 9 17 [(5, 2)]
      [⟨⟨4, 3⟩, 7⟩, ⟨⟨3, 12⟩, 6⟩, ⟨⟨3, 10⟩, -2⟩, ⟨⟨3, 12⟩, 8⟩]).getD 0 ⟨⟨0, 0⟩, 1, 0⟩
      ∈ clean_price_frame 9 17 [(5, 2)]
        [⟨⟨4, 3⟩, 7⟩, ⟨⟨3, 12⟩, 6⟩, ⟨⟨3, 10⟩, -2⟩, ⟨⟨3, 12⟩, 8⟩] := by
    with_unfolding_all decide
  exact ⟨h.1 _ hmem, (h.2.1 _ hmem).1⟩

end VolEst
